import Mathlib

/-!
# PPO snake trainer: verification of the training loop arithmetic and the checkpoint protocol

Shallow embedding of `train_ppo.cpp` (Config arithmetic, rollout step counter, GAE block,
minibatch slicing, running diagnostics, clipped surrogate loss, checkpoint naming and
schedule) and of `eval_ppo.cpp` (`get_largest`).

Conventions of the embedding:
* tensor entries are rationals (every finite float is a rational; arithmetic is exact);
* a tensor of shape `(num_steps, num_envs)` is a function `Nat → Nat → ℚ` read at
  `(t, e)`, a tensor of shape `(num_envs)` is a function `Nat → ℚ`;
* `int` quantities that the program only uses while they are non-negative are `Nat`
  (tensor extents, loop bounds, step counters); `int`s that may be negative are `Int`;
  signed overflow is not modelled: a statement that depends on an `int` product or sum
  assumes that its value stays at or below `INT_MAX = 2147483647`;
* the model, the environments, the metrics writer and the file system are taken to
  return normally;
* `std::string` is `List Char`, compared lexicographically (`operator<` of `std::string`).
-/

set_option autoImplicit false

namespace PPO

/-! ## Configuration (`struct Config`) -/

/-- The fields of `Config` that the modelled code reads. `HIDDEN_DIM` (a macro of
`model/mlp.h`) and the result of `get_current_timestamp()` are taken as fields
`hidden_dim` and `timestamp`. -/
structure Config where
  seed : Int
  total_steps : Nat
  game_size : Int
  num_envs : Nat
  num_steps : Nat
  gamma : ℚ
  gae_lambda : ℚ
  minibatch_size : Nat
  update_epochs : Nat
  clip_coef : ℚ
  save_freq : Nat
  hidden_dim : Int
  timestamp : List Char

namespace Config

/-- The assignment `batch_size = num_envs * num_steps;`: the value of the `int` product
while it is at most `INT_MAX`. -/
def batch_size (cfg : Config) : Nat := cfg.num_envs * cfg.num_steps

/-- The assignment `num_minibatches = batch_size / minibatch_size;` (for a `batch_size`
that did not overflow). -/
def num_minibatches (cfg : Config) : Nat := cfg.batch_size / cfg.minibatch_size

end Config

/-- The default configuration of `struct Config` (its member initialisers) for a given
number of environments, rollout length and minibatch size; `hidden_dim` and `timestamp`
are sample values. -/
def defaultConfig (num_envs num_steps minibatch_size : Nat) : Config where
  seed := 1
  total_steps := 20000000
  game_size := 8
  num_envs := num_envs
  num_steps := num_steps
  gamma := 99 / 100
  gae_lambda := 95 / 100
  minibatch_size := minibatch_size
  update_epochs := 4
  clip_coef := 2 / 10
  save_freq := 200000
  hidden_dim := 256
  timestamp := "1700000000".toList

/-! ## Generalised advantage estimation (the block under `// 计算GAE`) -/

/-- The tensors the GAE block reads: the rollout buffers and the bootstrap pair. -/
structure Rollout where
  rewards : Nat → Nat → ℚ
  values : Nat → Nat → ℚ
  dones : Nat → Nat → ℚ
  next_value : Nat → ℚ
  next_done : Nat → ℚ

/-- The mutable state of the GAE loop. -/
structure GaeState where
  lastadvantages : Nat → ℚ
  advantages : Nat → Nat → ℚ

/-- The tensor `nextnondone` as the loop body sets it for time step `t`. -/
def nextnondone (num_steps : Nat) (r : Rollout) (t : Nat) : Nat → ℚ :=
  if t = num_steps - 1 then fun e => 1 - r.next_done e else fun e => 1 - r.dones (t + 1) e

/-- The tensor `nextvalues` as the loop body sets it for time step `t`. -/
def nextvalues (num_steps : Nat) (r : Rollout) (t : Nat) : Nat → ℚ :=
  if t = num_steps - 1 then r.next_value else r.values (t + 1)

/-- The assignment `delta = rewards[t] + cfg.gamma * nextvalues * nextnondone - values[t];`. -/
def delta (gamma : ℚ) (num_steps : Nat) (r : Rollout) (t : Nat) : Nat → ℚ :=
  fun e => r.rewards t e + gamma * nextvalues num_steps r t e * nextnondone num_steps r t e
    - r.values t e

/-- One pass through the body of `for (int t = num_steps-1; t >= 0; --t)`:
`advantages[t] = lastadvantages = delta + cfg.gamma * cfg.gae_lambda * lastadvantages;` -/
def gae_body (gamma gae_lambda : ℚ) (num_steps : Nat) (r : Rollout) (t : Nat)
    (s : GaeState) : GaeState :=
  let d := delta gamma num_steps r t
  let last : Nat → ℚ := fun e => d e + gamma * gae_lambda * s.lastadvantages e
  { lastadvantages := last, advantages := Function.update s.advantages t last }

/-- The loop `for (t = n-1; t >= 0; --t)`: runs the body at `n-1`, then `n-2`, ..., `0`. -/
def gae_loop (gamma gae_lambda : ℚ) (num_steps : Nat) (r : Rollout) : Nat → GaeState → GaeState
  | 0, s => s
  | n + 1, s => gae_loop gamma gae_lambda num_steps r n (gae_body gamma gae_lambda num_steps r n s)

/-- The tensor `advantages` after the GAE block: both `advantages` and `lastadvantages`
start as zeros and the loop starts at `t = num_steps - 1`. -/
def compute_advantages (gamma gae_lambda : ℚ) (num_steps : Nat) (r : Rollout) : Nat → Nat → ℚ :=
  (gae_loop gamma gae_lambda num_steps r num_steps
    { lastadvantages := fun _ => 0, advantages := fun _ _ => 0 }).advantages

/-- The rollout on which the recursion of the advantage estimator is examined: two steps,
an episode boundary carried into step 1 (`dones[1] = 1`), reward 1 at step 1. -/
def boundaryRollout : Rollout where
  rewards := fun t _ => if t = 1 then 1 else 0
  values := fun _ _ => 0
  dones := fun t _ => if t = 1 then 1 else 0
  next_value := fun _ => 0
  next_done := fun _ => 0

/-- A rollout without episode boundaries: three steps, rewards `t + 1`, values `2`. -/
def steadyRollout : Rollout where
  rewards := fun t _ => (t : ℚ) + 1
  values := fun _ _ => 2
  dones := fun _ _ => 0
  next_value := fun _ => 3
  next_done := fun _ => 1

/-- The temporal-difference residual of step `k` of environment `e` when no episode ends
inside the rollout, as the closed form of the estimator words it: the successor value is
`values[k+1]` below the last step, and the bootstrap value masked by `1 - next_done` at
the last step. -/
def delta_no_boundary (gamma : ℚ) (num_steps : Nat) (r : Rollout) (k e : Nat) : ℚ :=
  if k + 1 < num_steps then r.rewards k e + gamma * r.values (k + 1) e - r.values k e
  else r.rewards k e + gamma * r.next_value e * (1 - r.next_done e) - r.values k e

/-! ## Minibatch slicing (the epoch loop of `main`) -/

/-- The tensor method `slice(0, start, end)` on a one-dimensional tensor: the entries at
positions `start ≤ p < end`, both bounds clamped to the length. -/
def slice {α : Type} (l : List α) (start stop : Nat) : List α := (l.take stop).drop start

/-- The index tensors `mb_idx` of one epoch, in loop order:
`for (i = 0; i < num_minibatches; ++i) mb_idx = b_idx.slice(0, i*minibatch_size, (i+1)*minibatch_size)`. -/
def epoch_minibatches (cfg : Config) (b_idx : List Nat) : List (List Nat) :=
  (List.range cfg.num_minibatches).map
    (fun i => slice b_idx (i * cfg.minibatch_size) ((i + 1) * cfg.minibatch_size))

/-- All sample indices that one epoch feeds to the model, with repetitions. -/
def epoch_samples (cfg : Config) (b_idx : List Nat) : List Nat :=
  (epoch_minibatches cfg b_idx).flatten

/-! ## Running diagnostics and the clipped surrogate loss (the minibatch body of `main`) -/

/-- The reduction `mean()` of a one-dimensional tensor. -/
def mean (l : List ℚ) : ℚ := l.sum / (l.length : ℚ)

/-- The update `running += (x - running) / cnt;` applied to `approx_kl` and to
`mean_clipfracs`; returns the new value of `running`. -/
def running_update (running x : ℚ) (cnt : Nat) : ℚ := running + (x - running) / (cnt : ℚ)

/-- The function `torch::clamp(x, lo, hi)` on one entry. -/
def clamp (x lo hi : ℚ) : ℚ := min (max x lo) hi

/-- The policy loss:
`pg_loss1 = -mb_advantages * ratio;`
`pg_loss2 = -mb_advantages * torch::clamp(ratio, 1-clip_coef, 1+clip_coef);`
`pg_loss = torch::max(pg_loss1, pg_loss2).mean();` -/
def pg_loss (clip_coef : ℚ) (mb_advantages ratio : List ℚ) : ℚ :=
  let pg_loss1 := List.zipWith (fun a r => -a * r) mb_advantages ratio
  let pg_loss2 :=
    List.zipWith (fun a r => -a * clamp r (1 - clip_coef) (1 + clip_coef)) mb_advantages ratio
  mean (List.zipWith max pg_loss1 pg_loss2)

/-- The clip fraction of one minibatch:
`((ratio-1.0).abs() > cfg.clip_coef).to(torch::kFloat).mean()`. -/
def clipfrac (clip_coef : ℚ) (ratio : List ℚ) : ℚ :=
  mean (ratio.map (fun r => if |r - 1| > clip_coef then 1 else 0))

/-! ## Checkpoint naming (the save block of `main`) -/

/-- The library function `std::to_string(int)`: the decimal digits, most significant first,
after a minus sign for a negative value. -/
def to_string : Int → List Char
  | Int.ofNat n => Nat.toDigits 10 n
  | Int.negSucc n => '-' :: Nat.toDigits 10 (n + 1)

/-- The loop `while (model_name.size() < 10) model_name = "0" + model_name;`. -/
def pad_model_name (model_name : List Char) : List Char :=
  if model_name.length < 10 then pad_model_name ('0' :: model_name) else model_name
termination_by 10 - model_name.length
decreasing_by simp_wf; omega

/-- The string `model_name` the save block builds from `global_step`:
`std::to_string(global_step)` run through the padding loop. -/
def model_name (global_step : Nat) : List Char := pad_model_name (to_string (global_step : Int))

/-- The `k` low decimal digits of `n`, most significant first: the reference rendering
against which the padded name is compared. -/
def fixed_width : Nat → Nat → List Char
  | 0, _ => []
  | k + 1, n => fixed_width k (n / 10) ++ [Nat.digitChar (n % 10)]

/-! ## Iteration loop and checkpoint schedule (`main`) -/

/-- The search of `std::string::find`, from position `pos` of the scanned string on: the
first position at which `pat` starts, `none` standing for `npos`. -/
def find_from (pat : List Char) : List Char → Nat → Option Nat
  | [], pos => if pat = [] then some pos else none
  | c :: s, pos => if pat.isPrefixOf (c :: s) then some pos else find_from pat s (pos + 1)

/-- The member function `name.find(pat)`. -/
def find (name pat : List Char) : Option Nat := find_from pat name 0

/-- The expression `(fs::path(p) / q).string()` on a POSIX file system: an absolute `q`
replaces `p`; otherwise a separator is appended when `p` has a file name (is not empty
and does not end in a separator), then `q`. -/
def path_append (p q : List Char) : List Char :=
  if q.head? = some '/' then q
  else if p ≠ [] ∧ p.getLast? ≠ some '/' then p ++ '/' :: q
  else p ++ q

/-- The search pattern `"size"+std::to_string(game_size)`. -/
def size_tag (game_size : Int) : List Char := "size".toList ++ to_string game_size

/-- The body of the loop over the directory entries, on `largest_folder_name`:
the `continue` of the game-size filter, then the comparison. -/
def get_largest_body (game_size : Int) (find_folder : Bool)
    (largest_folder_name name : List Char) : List Char :=
  if find_folder && (find name (size_tag game_size)).isNone then
    largest_folder_name
  else if name > largest_folder_name then name
  else largest_folder_name

/-- The function `get_largest` of `eval_ppo.cpp`. The global `game_size` and the file names
of the directory, in the order `fs::directory_iterator` enumerates them, are arguments. -/
def get_largest (game_size : Int) (entries : List (List Char)) (directory_path : List Char)
    (find_folder : Bool) : List Char :=
  let largest_folder_name := entries.foldl (get_largest_body game_size find_folder) []
  if largest_folder_name ≠ [] then path_append directory_path largest_folder_name
  else []

/-- Eligibility of an entry name as the specification words it: every name when
`find_folder` is false, the names containing `"size"` followed by the decimal `game_size`
otherwise. -/
def eligible (game_size : Int) (find_folder : Bool) (name : List Char) : Bool :=
  !find_folder || decide ((size_tag game_size) <:+: name)

/-- The run name `Config::Config` builds:
`"seed" + to_string(seed) + "_hidden" + to_string(HIDDEN_DIM) + "_size" + to_string(game_size) + "_" + get_current_timestamp()`. -/
def run_name (cfg : Config) : List Char :=
  "seed".toList ++ to_string cfg.seed ++ "_hidden".toList ++ to_string cfg.hidden_dim
    ++ "_size".toList ++ to_string cfg.game_size ++ "_".toList ++ cfg.timestamp

/-! # Theorems -/

/-! ### Facts about the GAE loop -/

/-- Rows at or above the loop bound are not touched by the loop. -/
theorem gae_loop_advantages_ge (gamma gae_lambda : ℚ) (num_steps : Nat) (r : Rollout) :
    ∀ (n : Nat) (s : GaeState) (t : Nat), n ≤ t →
      (gae_loop gamma gae_lambda num_steps r n s).advantages t = s.advantages t := by
  intro n
  induction n with
  | zero => intro s t _; rfl
  | succ n ih =>
    intro s t ht
    rw [gae_loop, ih _ t (by omega)]
    simp only [gae_body]
    exact Function.update_noteq (by omega) _ _

/-- The loop invariant of the GAE loop, read after the loop: every row below the bound
holds its delta plus the discounted row above it (the incoming `lastadvantages` for the
topmost row). -/
theorem gae_loop_row (gamma gae_lambda : ℚ) (num_steps : Nat) (r : Rollout) (e : Nat) :
    ∀ (n : Nat) (s : GaeState) (t : Nat), t < n →
      (gae_loop gamma gae_lambda num_steps r n s).advantages t e
        = delta gamma num_steps r t e + gamma * gae_lambda *
            (if t + 1 = n then s.lastadvantages e
             else (gae_loop gamma gae_lambda num_steps r n s).advantages (t + 1) e) := by
  intro n
  induction n with
  | zero => intro s t ht; omega
  | succ n ih =>
    intro s t ht
    rw [gae_loop]
    by_cases htn : t = n
    · subst htn
      rw [gae_loop_advantages_ge _ _ _ _ _ _ t (le_refl t)]
      simp [gae_body]
    · have hlt : t < n := by omega
      rw [ih _ t hlt]
      have hne : ¬ t + 1 = n + 1 := by omega
      rw [if_neg hne]
      by_cases h1 : t + 1 = n
      · rw [if_pos h1, gae_loop_advantages_ge _ _ _ _ _ _ (t + 1) (by omega)]
        subst h1
        simp [gae_body]
      · rw [if_neg h1]

/-- The recursion the code computes: each row is its delta plus `gamma * gae_lambda` times
the row above, the row above the last one counting as zero. -/
theorem compute_advantages_row (gamma gae_lambda : ℚ) (num_steps : Nat) (r : Rollout)
    (t e : Nat) (ht : t < num_steps) :
    compute_advantages gamma gae_lambda num_steps r t e
      = delta gamma num_steps r t e + gamma * gae_lambda *
          (if t + 1 = num_steps then 0
           else compute_advantages gamma gae_lambda num_steps r (t + 1) e) := by
  unfold compute_advantages
  rw [gae_loop_row _ _ _ _ _ _ _ _ ht]

/-- The advantages are a discounted sum of the deltas of the later steps of the rollout. -/
theorem compute_advantages_sum (gamma gae_lambda : ℚ) (num_steps : Nat) (r : Rollout)
    (e : Nat) :
    ∀ (d t : Nat), num_steps - t = d → t < num_steps →
      compute_advantages gamma gae_lambda num_steps r t e
        = ∑ k in Finset.Ico t num_steps,
            (gamma * gae_lambda) ^ (k - t) * delta gamma num_steps r k e := by
  intro d
  induction d with
  | zero => intro t h1 h2; omega
  | succ d ih =>
    intro t hd ht
    rw [compute_advantages_row _ _ _ _ _ _ ht, Finset.sum_eq_sum_Ico_succ_bot ht]
    by_cases h1 : t + 1 = num_steps
    · rw [if_pos h1, h1]
      simp
    · rw [if_neg h1, ih (t + 1) (by omega) (by omega), Finset.mul_sum]
      simp only [Nat.sub_self, pow_zero, one_mul]
      congr 1
      apply Finset.sum_congr rfl
      intro k hk
      have hk1 : t + 1 ≤ k := (Finset.mem_Ico.mp hk).1
      have hk2 : k - t = (k - (t + 1)) + 1 := by omega
      rw [hk2, pow_succ]
      ring

/-- Claim **C1** (the code departs from the claim). On the two-step rollout `boundaryRollout`,
whose step 1 starts a new episode (`dones[1] = 1`), with the default `gamma = 0.99` and
`gae_lambda = 0.95`, the GAE block stores `advantages[0][0] = 0.9405`, while the claimed
recursion `delta[0] + gamma*gae_lambda*nextnonterminal[0]*advantages[1][0]` evaluates to
`0` on the same computed `advantages[1][0] = 1`: the loop multiplies the carried advantage
by `gamma*gae_lambda` only and leaves `nextnondone` out of that product. -/
theorem gae_recursion_omits_nonterminal_mask :
    compute_advantages (99 / 100) (95 / 100) 2 boundaryRollout 1 0 = 1 ∧
    nextnondone 2 boundaryRollout 0 0 = 0 ∧
    compute_advantages (99 / 100) (95 / 100) 2 boundaryRollout 0 0 = 1881 / 2000 ∧
    delta (99 / 100) 2 boundaryRollout 0 0
      + 99 / 100 * (95 / 100) * nextnondone 2 boundaryRollout 0 0
        * compute_advantages (99 / 100) (95 / 100) 2 boundaryRollout 1 0 = 0 := by
  have h1 : compute_advantages (99 / 100) (95 / 100) 2 boundaryRollout 1 0 = 1 := by
    rw [compute_advantages_row _ _ _ _ _ _ (by decide)]
    simp [delta, nextvalues, nextnondone, boundaryRollout]
  have h0 : nextnondone 2 boundaryRollout 0 0 = 0 := by
    simp [nextnondone, boundaryRollout]
  refine ⟨h1, h0, ?_, ?_⟩
  · rw [compute_advantages_row _ _ _ _ _ _ (by decide), if_neg (by decide), h1]
    simp [delta, nextvalues, nextnondone, boundaryRollout]
    norm_num
  · rw [h0, h1]
    simp [delta, nextvalues, nextnondone, boundaryRollout]

/-- Claim **C9**. When no episode ends inside the rollout of environment `e` (`dones[t][e] = 0`
for `1 ≤ t < num_steps`), the advantage the GAE loop stores at `(t, e)` is the sum over
`k` from `t` to `num_steps - 1` of `(gamma*gae_lambda)^(k-t) * delta[k]`, with `delta[k]`
the residual `delta_no_boundary`. -/
theorem gae_closed_form_without_boundaries (gamma gae_lambda : ℚ) (num_steps : Nat)
    (r : Rollout) (e : Nat)
    (hdones : ∀ t, 1 ≤ t → t < num_steps → r.dones t e = 0)
    (t : Nat) (ht : t < num_steps) :
    compute_advantages gamma gae_lambda num_steps r t e
      = ∑ k in Finset.Ico t num_steps,
          (gamma * gae_lambda) ^ (k - t) * delta_no_boundary gamma num_steps r k e := by
  rw [compute_advantages_sum gamma gae_lambda num_steps r e (num_steps - t) t rfl ht]
  apply Finset.sum_congr rfl
  intro k hk
  have hk2 : k < num_steps := (Finset.mem_Ico.mp hk).2
  congr 1
  unfold delta delta_no_boundary nextvalues nextnondone
  by_cases hlast : k + 1 < num_steps
  · have hne : ¬ k = num_steps - 1 := by omega
    rw [if_neg hne, if_neg hne, if_pos hlast, hdones (k + 1) (by omega) hlast]
    ring
  · have heq : k = num_steps - 1 := by omega
    rw [if_pos heq, if_pos heq, if_neg hlast]

/-- Witness for **C9**: the three-step rollout `steadyRollout` has no episode boundary and
its advantage at `(0, 0)` is the discounted sum of its three residuals. -/
theorem gae_closed_form_without_boundaries_witness :
    (∀ t, 1 ≤ t → t < 3 → steadyRollout.dones t 0 = 0) ∧
    compute_advantages (1 / 2) (1 / 2) 3 steadyRollout 0 0
      = ∑ k in Finset.Ico 0 3,
          ((1 / 2 : ℚ) * (1 / 2)) ^ (k - 0) * delta_no_boundary (1 / 2) 3 steadyRollout k 0 :=
  ⟨fun _ _ _ => rfl,
   gae_closed_form_without_boundaries (1 / 2) (1 / 2) 3 steadyRollout 0
     (fun _ _ _ => rfl) 0 (by decide)⟩

/-! ### Minibatch slicing -/

/-- Consecutive slices of equal width, concatenated, are a prefix of the sliced list. -/
theorem join_slices_eq_take {α : Type} (l : List α) (m : Nat) :
    ∀ k : Nat, ((List.range k).map (fun i => slice l (i * m) ((i + 1) * m))).flatten
      = l.take (k * m) := by
  intro k
  induction k with
  | zero => simp
  | succ k ih =>
    rw [List.range_succ, List.map_append, List.flatten_append, ih]
    simp only [List.map_cons, List.map_nil, List.flatten_cons, List.flatten_nil, List.append_nil, slice]
    have hle : k * m ≤ (k + 1) * m := Nat.mul_le_mul_right m (Nat.le_succ k)
    have h : l.take (k * m) = (l.take ((k + 1) * m)).take (k * m) := by
      rw [List.take_take, Nat.min_eq_left hle]
    rw [h, List.take_append_drop]

/-- The samples of one epoch are the first `num_minibatches * minibatch_size` entries of
the permutation. -/
theorem epoch_samples_eq_take (cfg : Config) (b_idx : List Nat) :
    epoch_samples cfg b_idx = b_idx.take (cfg.num_minibatches * cfg.minibatch_size) :=
  join_slices_eq_take b_idx cfg.minibatch_size cfg.num_minibatches

/-- Counterexample to **C2** as stated: with `num_envs = 1`, `num_steps = 3`,
`minibatch_size = 2` (no overflow) the batch has 3 samples and
`num_minibatches = 3 / 2 = 1`; under the identity permutation the single slice is `[0, 1]`
and sample 2 is never touched. -/
theorem minibatch_coverage_fails_when_not_divisible :
    (defaultConfig 1 3 2).batch_size = 3 ∧
    (defaultConfig 1 3 2).num_envs * (defaultConfig 1 3 2).num_steps ≤ 2147483647 ∧
    1 ≤ (defaultConfig 1 3 2).minibatch_size ∧
    List.Perm [0, 1, 2] (List.range (defaultConfig 1 3 2).batch_size) ∧
    2 < (defaultConfig 1 3 2).batch_size ∧
    epoch_minibatches (defaultConfig 1 3 2) [0, 1, 2] = [[0, 1]] ∧
    (epoch_samples (defaultConfig 1 3 2) [0, 1, 2]).count 2 = 0 := by
  decide

/-- Claim **C2** (amended). If the product `num_envs * num_steps` does not overflow an
`int` (it is at most `INT_MAX = 2147483647`) and `minibatch_size ≥ 1` divides
`batch_size = num_envs * num_steps`, then for every permutation `b_idx` of
`[0, batch_size)` the `num_minibatches` slices of one epoch contain every sample index of
`[0, batch_size)` exactly once. -/
theorem minibatch_coverage_when_divisible (cfg : Config) (b_idx : List Nat)
    (_hno : cfg.num_envs * cfg.num_steps ≤ 2147483647)
    (_hmb : 1 ≤ cfg.minibatch_size) (hdvd : cfg.minibatch_size ∣ cfg.batch_size)
    (hperm : List.Perm b_idx (List.range cfg.batch_size))
    (j : Nat) (hj : j < cfg.batch_size) :
    (epoch_samples cfg b_idx).count j = 1 := by
  have hlen : b_idx.length = cfg.batch_size := by
    rw [hperm.length_eq, List.length_range]
  have hmul : cfg.num_minibatches * cfg.minibatch_size = cfg.batch_size :=
    Nat.div_mul_cancel hdvd
  rw [epoch_samples_eq_take, hmul, ← hlen, List.take_length, hperm.count_eq]
  exact List.count_eq_one_of_mem (List.nodup_range _) (List.mem_range.mpr hj)

/-- Witness for **C2** (amended): `batch_size = 4 * 8 = 32`, `minibatch_size = 8`, four
minibatches, the reversed identity as permutation, sample 5. -/
theorem minibatch_coverage_when_divisible_witness :
    (defaultConfig 4 8 8).num_envs * (defaultConfig 4 8 8).num_steps ≤ 2147483647 ∧
    (defaultConfig 4 8 8).batch_size = 32 ∧ (defaultConfig 4 8 8).num_minibatches = 4 ∧
    (epoch_samples (defaultConfig 4 8 8) (List.range 32).reverse).count 5 = 1 :=
  ⟨by decide, by decide, by decide,
   minibatch_coverage_when_divisible (defaultConfig 4 8 8) (List.range 32).reverse
     (by decide) (by decide) (by decide) (List.reverse_perm _) 5 (by decide)⟩

/-! ### Running diagnostics -/

/-- Clamping the ratio `1` to `[1 - c, 1 + c]` leaves it when `0 ≤ c`. -/
theorem clamp_one (c : ℚ) (hc : 0 ≤ c) : clamp 1 (1 - c) (1 + c) = 1 := by
  unfold clamp
  rw [max_eq_left (by linarith), min_eq_left (by linarith)]

/-- With every ratio equal to one, the entrywise maximum of the two surrogate terms is the
negated advantage. -/
theorem surrogate_terms_ratio_one (c : ℚ) (hc : 0 ≤ c) :
    ∀ adv : List ℚ,
      List.zipWith max
        (List.zipWith (fun a r => -a * r) adv (List.replicate adv.length 1))
        (List.zipWith (fun a r => -a * clamp r (1 - c) (1 + c)) adv
          (List.replicate adv.length 1))
      = adv.map (fun a => -a) := by
  intro adv
  induction adv with
  | nil => rfl
  | cons a adv ih =>
    simp only [List.length_cons, List.replicate_succ, List.zipWith_cons_cons, List.map_cons,
      ih, clamp_one c hc, mul_one, max_self]

/-- With every ratio equal to one, no entry is counted as clipped. -/
theorem clip_indicator_ratio_one (c : ℚ) (hc : 0 ≤ c) :
    ∀ n : Nat,
      ((List.replicate n (1 : ℚ)).map (fun r => if |r - 1| > c then (1 : ℚ) else 0)).sum = 0 := by
  intro n
  induction n with
  | zero => rfl
  | succ n ih =>
    have hnot : ¬ (|(1 : ℚ) - 1| > c) := by
      rw [sub_self, abs_zero]
      exact not_lt.mpr hc
    simp only [List.replicate_succ, List.map_cons, List.sum_cons, if_neg hnot, ih, add_zero]

/-- Claim **C7**. For a non-empty minibatch, any advantage slice and `clip_coef ≥ 0`, if the
ratio is `1` for every sample then `pg_loss` equals the mean of the negated advantages,
the minibatch clip fraction is `0`, and updating a running `mean_clipfracs` of `0` with
it (for any count) leaves `0`. -/
theorem pg_loss_unchanged_policy (clip_coef : ℚ) (mb_advantages ratio : List ℚ)
    (_hne : mb_advantages ≠ []) (hclip : 0 ≤ clip_coef)
    (hratio : ratio = List.replicate mb_advantages.length 1) :
    pg_loss clip_coef mb_advantages ratio = mean (mb_advantages.map (fun a => -a)) ∧
    clipfrac clip_coef ratio = 0 ∧
    ∀ cnt : Nat, running_update 0 (clipfrac clip_coef ratio) cnt = 0 := by
  have hfrac : clipfrac clip_coef ratio = 0 := by
    unfold clipfrac mean
    rw [hratio, clip_indicator_ratio_one clip_coef hclip, zero_div]
  refine ⟨?_, hfrac, ?_⟩
  · unfold pg_loss
    rw [hratio]
    simp only [surrogate_terms_ratio_one clip_coef hclip]
  · intro cnt
    rw [hfrac]
    simp [running_update]

/-- Witness for **C7**: three samples with advantages `2, -1, 1/2`, all ratios `1`,
`clip_coef = 0.2`. -/
theorem pg_loss_unchanged_policy_witness :
    pg_loss (2 / 10) [2, -1, 1 / 2] [1, 1, 1] = mean ([2, -1, 1 / 2].map (fun a => -a)) ∧
    clipfrac (2 / 10) [1, 1, 1] = 0 ∧
    ∀ cnt : Nat, running_update 0 (clipfrac (2 / 10) [1, 1, 1]) cnt = 0 :=
  pg_loss_unchanged_policy (2 / 10) [2, -1, 1 / 2] [1, 1, 1]
    (by simp) (by norm_num) rfl

/-! ### Checkpoint naming -/

/-- On a non-negative value `to_string` is the digit list of the natural number. -/
theorem to_string_natCast (n : Nat) : to_string (n : Int) = Nat.toDigits 10 n := rfl

/-- The digit accumulator is only ever appended to. -/
theorem toDigitsCore_append (fuel : Nat) : ∀ (n : Nat) (ds : List Char),
    Nat.toDigitsCore 10 fuel n ds = Nat.toDigitsCore 10 fuel n [] ++ ds := by
  induction fuel with
  | zero => intro n ds; simp [Nat.toDigitsCore]
  | succ fuel ih =>
    intro n ds
    simp only [Nat.toDigitsCore]
    by_cases h : n / 10 = 0
    · simp [h]
    · simp only [h, if_false]
      rw [ih (n / 10) (Nat.digitChar (n % 10) :: ds), ih (n / 10) [Nat.digitChar (n % 10)]]
      simp

/-- The digit loop does not depend on its fuel once the fuel exceeds the number. -/
theorem toDigitsCore_fuel (f1 : Nat) : ∀ (f2 n : Nat) (ds : List Char), n < f1 → n < f2 →
    Nat.toDigitsCore 10 f1 n ds = Nat.toDigitsCore 10 f2 n ds := by
  induction f1 with
  | zero => intro f2 n ds h1; omega
  | succ f1 ih =>
    intro f2 n ds h1 h2
    cases f2 with
    | zero => omega
    | succ f2 =>
      simp only [Nat.toDigitsCore]
      by_cases h : n / 10 = 0
      · simp [h]
      · simp only [h, if_false]
        exact ih f2 (n / 10) _ (by omega) (by omega)

/-- A number below ten renders as its single digit. -/
theorem toDigits_small (n : Nat) (h : n < 10) : Nat.toDigits 10 n = [Nat.digitChar n] := by
  have h0 : n / 10 = 0 := by omega
  have h1 : n % 10 = n := by omega
  simp [Nat.toDigits, Nat.toDigitsCore, h0, h1]

/-- A number from ten on renders as its tenth part followed by its last digit. -/
theorem toDigits_large (n : Nat) (h : 10 ≤ n) :
    Nat.toDigits 10 n = Nat.toDigits 10 (n / 10) ++ [Nat.digitChar (n % 10)] := by
  have h0 : ¬ n / 10 = 0 := by omega
  unfold Nat.toDigits
  rw [Nat.toDigitsCore]
  simp only [h0, if_false]
  rw [toDigitsCore_append, toDigitsCore_fuel n (n / 10 + 1) (n / 10) [] (by omega) (by omega)]

/-- The padding loop prepends exactly the missing zeros (by the number of passes). -/
theorem pad_model_name_aux : ∀ (d : Nat) (s : List Char), 10 - s.length = d →
    pad_model_name s = List.replicate d '0' ++ s := by
  intro d
  induction d with
  | zero =>
    intro s h
    rw [pad_model_name, if_neg (by omega)]
    simp
  | succ d ih =>
    intro s h
    rw [pad_model_name, if_pos (by omega), ih ('0' :: s) (by simp; omega)]
    rw [List.replicate_succ', List.append_assoc]
    simp

/-- The padding loop prepends `10 - size` zeros. -/
theorem pad_model_name_eq (s : List Char) :
    pad_model_name s = List.replicate (10 - s.length) '0' ++ s :=
  pad_model_name_aux _ s rfl

/-- Zero renders as zeros at every width. -/
theorem fixed_width_zero (k : Nat) : fixed_width k 0 = List.replicate k '0' := by
  induction k with
  | zero => rfl
  | succ k ih =>
    rw [fixed_width, Nat.zero_div, ih, List.replicate_succ']
    rfl

/-- The reference rendering has the requested width. -/
theorem fixed_width_length (k : Nat) : ∀ n, (fixed_width k n).length = k := by
  induction k with
  | zero => intro n; rfl
  | succ k ih => intro n; simp [fixed_width, ih]

/-- Left-padding the decimal digits of `n < 10^(k+1)` to width `k+1` gives the reference
rendering. -/
theorem pad_toDigits_eq_fixed_width (k : Nat) : ∀ n, n < 10 ^ (k + 1) →
    List.replicate (k + 1 - (Nat.toDigits 10 n).length) '0' ++ Nat.toDigits 10 n
      = fixed_width (k + 1) n := by
  induction k with
  | zero =>
    intro n hn
    have hn' : n < 10 := by simpa using hn
    rw [toDigits_small n hn']
    simp [fixed_width, Nat.mod_eq_of_lt hn']
  | succ k ih =>
    intro n hn
    by_cases hsmall : n < 10
    · rw [toDigits_small n hsmall, fixed_width, Nat.div_eq_of_lt hsmall, fixed_width_zero,
        Nat.mod_eq_of_lt hsmall]
      simp
    · have hlarge : 10 ≤ n := by omega
      have hdiv : n / 10 < 10 ^ (k + 1) := by
        rw [Nat.div_lt_iff_lt_mul (by decide)]
        calc n < 10 ^ (k + 1 + 1) := hn
          _ = 10 ^ (k + 1) * 10 := by rw [pow_succ]
      rw [toDigits_large n hlarge, fixed_width, ← ih (n / 10) hdiv, List.length_append,
        List.length_singleton, Nat.add_sub_add_right, List.append_assoc]

/-- Digit characters are ordered like the digits. -/
theorem digitChar_lt_iff : ∀ c, c < 10 → ∀ d, d < 10 →
    (c < d ↔ Nat.digitChar c < Nat.digitChar d) := by
  decide

/-- Lexicographic comparison of two non-empty strings. -/
theorem lex_cons_iff (a b : Char) (l1 l2 : List Char) :
    a :: l1 < b :: l2 ↔ a < b ∨ (a = b ∧ l1 < l2) := by
  constructor
  · intro h
    cases h with
    | cons h' => exact Or.inr ⟨rfl, h'⟩
    | rel h' => exact Or.inl h'
  · rintro (h | ⟨rfl, h⟩)
    · exact List.Lex.rel h
    · exact List.Lex.cons h

/-- Lexicographic comparison of two strings of equal length extended by one character. -/
theorem lex_snoc_iff : ∀ (xs ys : List Char), xs.length = ys.length → ∀ (c d : Char),
    (xs ++ [c] < ys ++ [d] ↔ xs < ys ∨ (xs = ys ∧ c < d)) := by
  intro xs
  induction xs with
  | nil =>
    intro ys hlen c d
    have : ys = [] := List.length_eq_zero.mp hlen.symm
    subst this
    simp [lex_cons_iff]
  | cons x xs ih =>
    intro ys hlen c d
    cases ys with
    | nil => simp at hlen
    | cons y ys =>
      have hlen' : xs.length = ys.length := by simpa using hlen
      simp only [List.cons_append, lex_cons_iff, ih ys hlen' c d, List.cons.injEq]
      tauto

/-- At a fixed width, numeric order and lexicographic order of the renderings agree. -/
theorem fixed_width_lt_iff (k : Nat) : ∀ a b, a < 10 ^ k → b < 10 ^ k →
    (a < b ↔ fixed_width k a < fixed_width k b) := by
  induction k with
  | zero =>
    intro a b ha hb
    have ha0 : a = 0 := by simpa using ha
    have hb0 : b = 0 := by simpa using hb
    subst ha0 hb0
    simp [fixed_width]
  | succ k ih =>
    intro a b ha hb
    have hdiv : ∀ n, n < 10 ^ (k + 1) → n / 10 < 10 ^ k := by
      intro n hn
      rw [Nat.div_lt_iff_lt_mul (by decide)]
      calc n < 10 ^ (k + 1) := hn
        _ = 10 ^ k * 10 := by rw [pow_succ]
    have ha' := hdiv a ha
    have hb' := hdiv b hb
    have hinj : fixed_width k (a / 10) = fixed_width k (b / 10) ↔ a / 10 = b / 10 := by
      constructor
      · intro heq
        by_contra hne
        rcases Nat.lt_or_gt_of_ne hne with hlt | hgt
        · have := (ih _ _ ha' hb').mp hlt
          rw [heq] at this
          exact lt_irrefl _ this
        · have := (ih _ _ hb' ha').mp hgt
          rw [heq] at this
          exact lt_irrefl _ this
      · intro heq
        rw [heq]
    have hlen : (fixed_width k (a / 10)).length = (fixed_width k (b / 10)).length := by
      rw [fixed_width_length, fixed_width_length]
    rw [fixed_width, fixed_width, lex_snoc_iff _ _ hlen, hinj, ← ih _ _ ha' hb',
      ← digitChar_lt_iff (a % 10) (Nat.mod_lt _ (by decide)) (b % 10) (Nat.mod_lt _ (by decide))]
    omega

/-- The checkpoint name of a step count an `int` can hold is its ten-digit rendering. -/
theorem model_name_eq_fixed_width (n : Nat) (h : n ≤ 2147483647) :
    model_name n = fixed_width 10 n := by
  unfold model_name
  rw [to_string_natCast, pad_model_name_eq]
  exact pad_toDigits_eq_fixed_width 9 n (by omega)

/-- Claim **C3**. For step counts `a`, `b` with `0 ≤ a, b ≤ INT_MAX = 2147483647`, the name built
by left-padding `std::to_string(step)` with `0` to ten characters has length exactly 10,
`a < b` holds iff `name(a)` is lexicographically less than `name(b)`, and distinct steps
have distinct names. -/
theorem checkpoint_names_ordered (a b : Nat) (ha : a ≤ 2147483647) (hb : b ≤ 2147483647) :
    (model_name a).length = 10 ∧
    (a < b ↔ model_name a < model_name b) ∧
    (a ≠ b → model_name a ≠ model_name b) := by
  rw [model_name_eq_fixed_width a ha, model_name_eq_fixed_width b hb]
  have hab := fixed_width_lt_iff 10 a b (by omega) (by omega)
  have hba := fixed_width_lt_iff 10 b a (by omega) (by omega)
  refine ⟨fixed_width_length 10 a, hab, ?_⟩
  intro hne heq
  rcases Nat.lt_or_gt_of_ne hne with hlt | hgt
  · have := hab.mp hlt
    rw [heq] at this
    exact lt_irrefl _ this
  · have := hba.mp hgt
    rw [heq] at this
    exact lt_irrefl _ this


/-- Witness for **C3**: the steps 32 and 64 of the first two iterations of a run with
`batch_size = 32`. -/
theorem checkpoint_names_ordered_witness :
    (model_name 32).length = 10 ∧
    (32 < 64 ↔ model_name 32 < model_name 64) ∧
    (32 ≠ 64 → model_name 32 ≠ model_name 64) :=
  checkpoint_names_ordered 32 64 (by decide) (by decide)

/-! ### Checkpoint schedule -/

/-- The search reports `npos` exactly when the pattern does not occur in the string. -/
theorem find_from_eq_none_iff (pat : List Char) : ∀ (s : List Char) (pos : Nat),
    find_from pat s pos = none ↔ ¬ pat <:+: s := by
  intro s
  induction s with
  | nil =>
    intro pos
    by_cases h : pat = [] <;> simp [find_from, h]
  | cons c s ih =>
    intro pos
    rw [find_from, List.infix_cons_iff]
    by_cases h : pat.isPrefixOf (c :: s) = true
    · rw [if_pos h]
      have := List.isPrefixOf_iff_prefix.mp h
      simp [this]
    · rw [if_neg h, ih]
      have hp : ¬ pat <+: c :: s := fun hp => h (List.isPrefixOf_iff_prefix.mpr hp)
      simp [hp]

/-- The loop body keeps the greater of the current name and an eligible entry, and skips
the other entries. -/
theorem get_largest_body_eq (game_size : Int) (find_folder : Bool) (largest name : List Char) :
    get_largest_body game_size find_folder largest name
      = if eligible game_size find_folder name then max largest name else largest := by
  unfold get_largest_body eligible
  have hfind : (find name (size_tag game_size)).isNone = true
      ↔ ¬ (size_tag game_size) <:+: name := by
    rw [Option.isNone_iff_eq_none]
    exact find_from_eq_none_iff _ _ _
  have hmax : (if name > largest then name else largest) = max largest name := by
    by_cases h : name > largest
    · rw [if_pos h, max_eq_right (le_of_lt h)]
    · rw [if_neg h, max_eq_left (not_lt.mp h)]
  rw [hmax]
  cases find_folder with
  | false => simp
  | true =>
    by_cases hin : (size_tag game_size) <:+: name
    · have h1 : ¬ (find name (size_tag game_size)).isNone = true := by
        rw [hfind]; exact not_not.mpr hin
      simp [h1, hin]
    · have h1 : (find name (size_tag game_size)).isNone = true := hfind.mpr hin
      simp [h1, hin]

/-- The scan of the directory is a running maximum over the eligible entries. -/
theorem scan_eq_foldl_max (game_size : Int) (find_folder : Bool) :
    ∀ (entries : List (List Char)) (acc : List Char),
      entries.foldl (get_largest_body game_size find_folder) acc
        = (entries.filter (eligible game_size find_folder)).foldl max acc := by
  intro entries
  induction entries with
  | nil => intro acc; rfl
  | cons name rest ih =>
    intro acc
    rw [List.foldl_cons, ih, get_largest_body_eq, List.filter_cons]
    by_cases h : eligible game_size find_folder name = true
    · rw [if_pos h, if_pos h, List.foldl_cons]
    · rw [if_neg h, if_neg h]

/-- A running maximum ends at its start value or at a member, above both. -/
theorem foldl_max_spec : ∀ (names : List (List Char)) (acc : List Char),
    (names.foldl max acc = acc ∨ names.foldl max acc ∈ names) ∧
    acc ≤ names.foldl max acc ∧ ∀ n ∈ names, n ≤ names.foldl max acc := by
  intro names
  induction names with
  | nil => intro acc; simp
  | cons name rest ih =>
    intro acc
    obtain ⟨h1, h2, h3⟩ := ih (max acc name)
    rw [List.foldl_cons]
    refine ⟨?_, le_trans (le_max_left _ _) h2, ?_⟩
    · rcases h1 with h1 | h1
      · rcases max_choice acc name with hc | hc
        · left; rw [h1, hc]
        · right; rw [h1, hc]; exact List.mem_cons_self _ _
      · right; exact List.mem_cons_of_mem _ h1
    · intro n hn
      rcases List.mem_cons.mp hn with rfl | hn
      · exact le_trans (le_max_right _ _) h2
      · exact h3 n hn

/-- The empty string is below every string. -/
theorem nil_le_name (name : List Char) : ([] : List Char) ≤ name :=
  not_lt.mp (fun h => List.Lex.not_nil_right _ _ h)

/-- Over non-empty names, the running maximum from the empty string is the greatest name. -/
theorem largest_of_eligible (names : List (List Char)) (hnames : ∀ n ∈ names, n ≠ [])
    (hne : names ≠ []) :
    names.foldl max [] ≠ [] ∧ names.foldl max [] ∈ names ∧
      ∀ n ∈ names, n ≤ names.foldl max [] := by
  obtain ⟨h1, _, h3⟩ := foldl_max_spec names []
  obtain ⟨n, hn⟩ := List.exists_mem_of_ne_nil names hne
  have hnz : names.foldl max [] ≠ [] := by
    intro h0
    have hle := h3 n hn
    rw [h0] at hle
    exact hnames n hn (le_antisymm hle (nil_le_name n))
  refine ⟨hnz, ?_, h3⟩
  rcases h1 with h1 | h1
  · exact absurd h1 hnz
  · exact h1

/-- Appending a non-empty name to a path gives a non-empty path. -/
theorem path_append_ne_nil (p q : List Char) (hq : q ≠ []) : path_append p q ≠ [] := by
  unfold path_append
  split
  · exact hq
  · split <;> simp [hq]

/-- When the eligible entries have a greatest name, `get_largest` returns its path. -/
theorem get_largest_of_greatest (game_size : Int) (entries : List (List Char))
    (directory_path : List Char) (find_folder : Bool)
    (hnames : ∀ n ∈ entries, n ≠ []) (m : List Char)
    (hm : m ∈ entries.filter (eligible game_size find_folder))
    (hmax : ∀ n ∈ entries.filter (eligible game_size find_folder), n ≤ m) :
    get_largest game_size entries directory_path find_folder
      = path_append directory_path m := by
  have hnames' : ∀ n ∈ entries.filter (eligible game_size find_folder), n ≠ [] :=
    fun n hn => hnames n (List.mem_filter.mp hn).1
  obtain ⟨h1, h2, h3⟩ := largest_of_eligible _ hnames' (List.ne_nil_of_mem hm)
  have heq : (entries.filter (eligible game_size find_folder)).foldl max [] = m :=
    le_antisymm (hmax _ h2) (h3 m hm)
  unfold get_largest
  simp only [scan_eq_foldl_max, heq]
  rw [if_pos (hnames' m hm)]

/-- Claim **C4**. For a directory listing (file names are non-empty) with at least one eligible
entry, there is a lexicographically greatest eligible entry name `m`, and `get_largest`
returns `directory_path / m` for every order in which the entries are enumerated. -/
theorem get_largest_returns_greatest (game_size : Int) (entries : List (List Char))
    (directory_path : List Char) (find_folder : Bool)
    (hnames : ∀ n ∈ entries, n ≠ [])
    (helig : entries.filter (eligible game_size find_folder) ≠ []) :
    ∃ m : List Char,
      m ∈ entries.filter (eligible game_size find_folder) ∧
      (∀ n ∈ entries.filter (eligible game_size find_folder), n ≤ m) ∧
      ∀ enumerated : List (List Char), enumerated.Perm entries →
        get_largest game_size enumerated directory_path find_folder
          = path_append directory_path m := by
  have hnames' : ∀ n ∈ entries.filter (eligible game_size find_folder), n ≠ [] :=
    fun n hn => hnames n (List.mem_filter.mp hn).1
  obtain ⟨_, h2, h3⟩ := largest_of_eligible _ hnames' helig
  refine ⟨_, h2, h3, ?_⟩
  intro enumerated hperm
  have hf := hperm.filter (eligible game_size find_folder)
  exact get_largest_of_greatest game_size enumerated directory_path find_folder
    (fun n hn => hnames n (hperm.mem_iff.mp hn)) _ (hf.mem_iff.mpr h2)
    (fun n hn => h3 n (hf.mem_iff.mp hn))

/-- Claim **C6**. For every directory listing (file names are non-empty) and both values of
`find_folder`, `get_largest` returns the empty string iff the directory has no eligible
entry, and a non-empty path whenever an eligible entry exists. -/
theorem get_largest_empty_iff (game_size : Int) (entries : List (List Char))
    (directory_path : List Char) (find_folder : Bool)
    (hnames : ∀ n ∈ entries, n ≠ []) :
    (get_largest game_size entries directory_path find_folder = []
      ↔ entries.filter (eligible game_size find_folder) = []) ∧
    (entries.filter (eligible game_size find_folder) ≠ [] →
      get_largest game_size entries directory_path find_folder ≠ []) := by
  have hnames' : ∀ n ∈ entries.filter (eligible game_size find_folder), n ≠ [] :=
    fun n hn => hnames n (List.mem_filter.mp hn).1
  have hpos : entries.filter (eligible game_size find_folder) ≠ [] →
      get_largest game_size entries directory_path find_folder ≠ [] := by
    intro helig
    obtain ⟨h1, _, _⟩ := largest_of_eligible _ hnames' helig
    unfold get_largest
    simp only [scan_eq_foldl_max]
    rw [if_pos h1]
    exact path_append_ne_nil _ _ h1
  refine ⟨⟨?_, ?_⟩, hpos⟩
  · intro h
    by_contra hne
    exact hpos hne h
  · intro h
    unfold get_largest
    simp only [scan_eq_foldl_max, h, List.foldl_nil]
    simp

/-- Witness for **C4**: the checkpoint names `0000000100`, `0000000020`, `0000001000` in
the directory `ckpt/run`; the result is the path of `0000001000`. -/
theorem get_largest_returns_greatest_witness :
    get_largest 8 ["0000000100".toList, "0000000020".toList, "0000001000".toList]
        "ckpt/run".toList false = "ckpt/run/0000001000".toList ∧
    ∃ m : List Char,
      m ∈ ["0000000100".toList, "0000000020".toList, "0000001000".toList].filter
            (eligible 8 false) ∧
      (∀ n ∈ ["0000000100".toList, "0000000020".toList, "0000001000".toList].filter
            (eligible 8 false), n ≤ m) ∧
      ∀ enumerated : List (List Char),
        enumerated.Perm ["0000000100".toList, "0000000020".toList, "0000001000".toList] →
        get_largest 8 enumerated "ckpt/run".toList false = path_append "ckpt/run".toList m :=
  ⟨by decide,
   get_largest_returns_greatest 8
     ["0000000100".toList, "0000000020".toList, "0000001000".toList] "ckpt/run".toList false
     (by decide) (by decide)⟩

/-- Witness for **C6**: a checkpoint root with one run of game size 8 and one of game size
12, searched for game size 12. -/
theorem get_largest_empty_iff_witness :
    (get_largest 12 ["seed1_hidden256_size8_1700000000".toList,
          "seed1_hidden256_size12_1700000500".toList] "ckpt".toList true = []
      ↔ ["seed1_hidden256_size8_1700000000".toList,
          "seed1_hidden256_size12_1700000500".toList].filter (eligible 12 true) = []) ∧
    (["seed1_hidden256_size8_1700000000".toList,
          "seed1_hidden256_size12_1700000500".toList].filter (eligible 12 true) ≠ [] →
      get_largest 12 ["seed1_hidden256_size8_1700000000".toList,
          "seed1_hidden256_size12_1700000500".toList] "ckpt".toList true ≠ []) :=
  get_largest_empty_iff 12 ["seed1_hidden256_size8_1700000000".toList,
    "seed1_hidden256_size12_1700000500".toList] "ckpt".toList true (by decide)

/-- Claim **C10** (the code departs from the claim). A run trained with `game_size = 16` has the
name `seed1_hidden256_size16_1700000000`; evaluation asked for `game_size = 1` searches
for `size1`, finds it at position 16 of that name, treats the run as eligible and returns
its directory. -/
theorem game_size_filter_accepts_longer_size :
    run_name { defaultConfig 64 128 512 with game_size := 16 }
      = "seed1_hidden256_size16_1700000000".toList ∧
    find (run_name { defaultConfig 64 128 512 with game_size := 16 }) (size_tag 1) = some 16 ∧
    get_largest 1 [run_name { defaultConfig 64 128 512 with game_size := 16 }]
        "ckpt".toList true = "ckpt/seed1_hidden256_size16_1700000000".toList := by
  decide

end PPO
